import Mathlib

/-
  A shallow embedding of the ingestion pipeline of `app/lib/populate.py`
  (the `Populate` class and its helpers), together with proofs about it.

  External collaborators (the tag extractor, the filesystem scanner, the
  filesystem itself, the connectivity probe, the session-key global) are
  modelled as explicit parameters collected in `Env`.  Store classes and
  helpers that live outside the two source files (`app.store.*`,
  `app.models`, `app.lib.trackslib.validate_tracks`) are modelled from the
  spec; each such definition says so in its doc comment.
-/

namespace Swing

/-- An artist identity as it occurs in a track's `artist` / `albumartist` lists. -/
structure ArtistIdentity where
  name : String
  artisthash : String
deriving DecidableEq, Repr

/-- The metadata record returned by the tag extractor `get_tags` for one file;
`None` in Python is `Option.none` here. -/
structure Tags where
  trackhash : String
  albumhash : String
  filepath : String
  last_mod : Nat
  artist : List ArtistIdentity
  albumartist : List ArtistIdentity
deriving DecidableEq, Repr

/-- A catalog Track record: `Track(**tags)` plus the derived `is_favorite` flag
set on line 135 of `populate.py`. -/
structure Track where
  trackhash : String
  albumhash : String
  filepath : String
  last_mod : Nat
  artist : List ArtistIdentity
  albumartist : List ArtistIdentity
  is_favorite : Bool
deriving DecidableEq, Repr

/-- Modelled from the spec: the Album entity of `app.models`, identified by its
`albumhash` (derived deterministically from the owning track). -/
structure Album where
  albumhash : String
deriving DecidableEq, Repr

/-- Modelled from the spec: the Artist entity of `app.models`; its `artisthash`
is derived from the artist name by a hash function, kept abstract as `ah`. -/
structure Artist where
  name : String
  artisthash : String
deriving DecidableEq, Repr

/-- Modelled from the spec: the `Artist(name)` constructor, deriving the
`artisthash` from the name via the abstract hash function `ah`. -/
def mkArtist (ah : String → String) (name : String) : Artist :=
  ⟨name, ah name⟩

/-- Modelled from the spec: the in-memory catalog stores (`TrackStore`,
`AlbumStore`, `ArtistStore` of `app.store`), authoritative working sets. -/
structure Stores where
  tracks : List Track
  albums : List Album
  artists : List Artist
deriving DecidableEq, Repr

/-- Modelled from the spec: `AlbumStore.album_exists`, the membership test on
album hashes that gates insertion. -/
def album_exists (s : Stores) (h : String) : Bool :=
  s.albums.any (fun a => a.albumhash == h)

/-- Modelled from the spec: `ArtistStore.artist_exists`, the membership test on
artist hashes that gates insertion. -/
def artist_exists (s : Stores) (h : String) : Bool :=
  s.artists.any (fun a => a.artisthash == h)

/-- Modelled from the spec: `AlbumStore.create_album(track)`, an Album derived
from the track's album-identifying fields. -/
def create_album (t : Track) : Album :=
  ⟨t.albumhash⟩

/-- Python's `needle in haystack` on strings: a contiguous-substring test. -/
def isSubstr (needle haystack : String) : Bool :=
  decide (needle.toList <:+: haystack.toList)

/-- Line 124: `fav_tracks = "-".join([t[1] for t in fav_tracks])`. -/
def joinFavs : List String → String
  | [] => ""
  | [x] => x
  | x :: xs => x ++ "-" ++ joinFavs xs

/-- Lines 134-135: `track = Track(**tags)` followed by
`track.is_favorite = track.trackhash in fav_tracks` (a substring test, because
`fav_tracks` has been joined into a single string). -/
def mkTrack (favStr : String) (tg : Tags) : Track :=
  { trackhash := tg.trackhash, albumhash := tg.albumhash, filepath := tg.filepath,
    last_mod := tg.last_mod, artist := tg.artist, albumartist := tg.albumartist,
    is_favorite := isSubstr tg.trackhash favStr }

/-- Lines 142-148: insert each artist identity of a role list whose
`artisthash` is not yet in the Artist store. -/
def addArtistsFor (ah : String → String) : List ArtistIdentity → Stores → Stores
  | [], s => s
  | idt :: ids, s =>
      addArtistsFor ah ids
        (if artist_exists s idt.artisthash then s
         else { s with artists := s.artists ++ [mkArtist ah idt.name] })

/-- Lines 134-148: the store mutations performed for one successfully tagged
file: add the Track, add its Album if the hash is new, add the new artists of
both roles. -/
def ingestOne (ah : String → String) (favStr : String) (tg : Tags) (s : Stores) : Stores :=
  let track := mkTrack favStr tg
  let s1 : Stores := { s with tracks := s.tracks ++ [track] }
  let s2 : Stores :=
    if album_exists s1 track.albumhash then s1
    else { s1 with albums := s1.albums ++ [create_album track] }
  addArtistsFor ah track.albumartist (addArtistsFor ah track.artist s2)

/-- Outcome of the `for file in tqdm(untagged)` loop of `tag_untagged`:
either the `PopulateCancelledError` raised on line 128 (carrying the store
state at the moment of the raise), or normal completion with the accumulated
`tagged_tracks` batch and the success count. -/
inductive TagOutcome where
  | cancelled (s : Stores)
  | completed (s : Stores) (batch : List Tags) (count : Nat)
deriving DecidableEq, Repr

/-- Lines 126-152: the tag-ingestion loop.  `gkey i` is the value of the
process-wide global `POPULATE_KEY` observed at the cancellation check of
iteration `i` (it may be reassigned by a concurrent `Populate(key2)`). -/
def tagLoop (ah : String → String) (gkey : Nat → String) (key : String)
    (getTags : String → Option Tags) (favStr : String) :
    List String → Nat → Stores → List Tags → Nat → TagOutcome
  | [], _, s, batch, count => .completed s batch count
  | f :: rest, i, s, batch, count =>
      if gkey i ≠ key then .cancelled s
      else
        match getTags f with
        | none => tagLoop ah gkey key getTags favStr rest (i + 1) s batch count
        | some tg =>
            tagLoop ah gkey key getTags favStr rest (i + 1)
              (ingestOne ah favStr tg s) (batch ++ [tg]) (count + 1)

/-- The store state reached by the loop on a list of files, ignoring
cancellation: fold `ingestOne` over the files that tag successfully. -/
def processFiles (ah : String → String) (getTags : String → Option Tags)
    (favStr : String) (files : List String) (s : Stores) : Stores :=
  files.foldl
    (fun s f =>
      match getTags f with
      | none => s
      | some tg => ingestOne ah favStr tg s) s

/-- The store component of a `TagOutcome`. -/
def outcomeStores : TagOutcome → Stores
  | .cancelled s => s
  | .completed s _ _ => s

/-- Whether a `TagOutcome` is the cancellation signal. -/
def isCancelled : TagOutcome → Bool
  | .cancelled _ => true
  | .completed _ _ _ => false

/-- Outcome of one call to the network enrichment stage `CheckArtistImages`:
it either runs to the end, or raises one of the two caught exception types
(`requests.ConnectionError`, `requests.ReadTimeout`). -/
inductive NetOutcome where
  | ok
  | connError
  | readTimeout
deriving DecidableEq, Repr

/-- The whole mutable state a `Populate(key)` run touches: the in-memory
stores, the persistent track table (rows are the raw tag dicts inserted by
`insert_many_tracks`), and markers recording which post-ingestion stages ran
(`ProcessTrackThumbnails`, `ProcessAlbumColors`, `ProcessArtistColors`,
`CheckArtistImages`); the stage bodies live outside `src` and are modelled
from the spec as store-preserving effects, so only their invocation is
recorded here. -/
structure PState where
  stores : Stores
  db : List Tags
  thumbnailsRun : Bool
  albumColorsRuns : Nat
  artistColorsRuns : Nat
  enrichmentCompleted : Bool
deriving DecidableEq, Repr

/-- The external collaborators of a `Populate` run: the artist-name hash
function, the recursive scanner `run_fast_scandir`, the filesystem (mtime by
path, `none` when the path is unreadable), the tag extractor `get_tags`, the
favorites hashes from `favdb.get_fav_tracks`, the observed values of the
global `POPULATE_KEY` at each loop check, the connectivity probe `Ping()()`,
the enrichment outcome, and the configured root directories. -/
structure Env where
  ah : String → String
  scandir : String → List String
  fsys : String → Option Nat
  getTags : String → Option Tags
  favs : List String
  gkey : Nat → String
  ping : Bool
  net : NetOutcome
  rootDirs : List String
  userHome : String

/-- Result of `Populate(key)`: normal return, or the escaped
`PopulateCancelledError` (the state at the raise survives, because the store
mutations are process-wide). -/
inductive PopResult where
  | cancelled (st : PState)
  | ok (st : PState)
deriving DecidableEq, Repr

/-- Modelled from the spec: `validate_tracks` of `app.lib.trackslib` (called
on line 48, not under `src`), which deletes tracks whose filepath is no
longer readable from both the in-memory and the persistent Track store. -/
def validate_tracks (fsys : String → Option Nat) (st : PState) : PState :=
  { st with
    stores := { st.stores with
      tracks := st.stores.tracks.filter (fun t => (fsys t.filepath).isSome) },
    db := st.db.filter (fun r => (fsys r.filepath).isSome) }

/-- Python's `os.path.getmtime`; it raises on a missing path, but in the
pipeline it is only reached for paths that `validate_tracks` has just checked
to exist, so totalising the missing case with `0` is never observable there. -/
def getmtime (fsys : String → Option Nat) (p : String) : Nat :=
  (fsys p).getD 0

/-- Lines 103-110, `Populate.remove_modified`: collect the filepaths of the
known tracks whose recorded `last_mod` differs from the file's current mtime
and delete them, keyed by filepath, from the in-memory store
(`TrackStore.remove_tracks_by_filepaths`) and the persistent table
(`remove_tracks_by_filepaths`). -/
def remove_modified (fsys : String → Option Nat) (tracks : List Tags) (st : PState) : PState :=
  let modified := (tracks.filter (fun t => t.last_mod ≠ getmtime fsys t.filepath)).map (·.filepath)
  { st with
    stores := { st.stores with
      tracks := st.stores.tracks.filter (fun t => t.filepath ∉ modified) },
    db := st.db.filter (fun r => r.filepath ∉ modified) }

/-- Lines 112-115, `Populate.filter_untagged`:
`set(files) - set(tagged_files)`.  The set difference is modelled as a
filtered, de-duplicated list; the spec leaves the iteration order
unspecified. -/
def filter_untagged (tracks : List Tags) (files : List String) : List String :=
  (files.filter (fun f => f ∉ tracks.map (·.filepath))).dedup

/-- Lines 63-67: if the first configured root directory is the sentinel
`"$home"`, the whole list is replaced by the singleton home directory. -/
def resolveRootDirs (userHome : String) : List String → List String
  | [] => []
  | d :: ds => if d = "$home" then [userHome] else d :: ds

/-- Lines 69-72: the scanned candidate files, concatenated over the resolved
root directories. -/
def scanFiles (env : Env) : List String :=
  (resolveRootDirs env.userHome env.rootDirs).flatMap env.scandir

/-- Lines 117-158, `Populate.tag_untagged`: join the favorites hashes, run the
cancellable loop, and on normal completion bulk-insert the accumulated batch
into the persistent table when it is non-empty; on cancellation the raise
skips the bulk insert and propagates. -/
def tag_untagged (env : Env) (key : String) (untagged : List String) (st : PState) : PopResult :=
  match tagLoop env.ah env.gkey key env.getTags (joinFavs env.favs) untagged 0 st.stores [] 0 with
  | .cancelled s => .cancelled { st with stores := s }
  | .completed s batch _ =>
      .ok { st with stores := s,
                    db := if 0 < batch.length then st.db ++ batch else st.db }

/-- Lines 80-101: the post-ingestion stages in order — thumbnails, album
colors, artist colors, then the connectivity-gated enrichment with its
`try/except` and the re-run of artist colors gated on
`tried_to_download_new_images` (which is set before `CheckArtistImages` is
attempted, hence also when the latter raises). -/
def postStages (env : Env) (st : PState) : PState :=
  let st1 : PState := { st with thumbnailsRun := true }
  let st2 : PState := { st1 with albumColorsRuns := st1.albumColorsRuns + 1 }
  let st3 : PState := { st2 with artistColorsRuns := st2.artistColorsRuns + 1 }
  if env.ping then
    let st4 : PState :=
      match env.net with
      | .ok => { st3 with enrichmentCompleted := true }
      | .connError => st3
      | .readTimeout => st3
    { st4 with artistColorsRuns := st4.artistColorsRuns + 1 }
  else st3

/-- Lines 69-78: the sequential ingestion phase run when roots are
configured — read the known tracks, scan, remove modified tracks, and tag the
untagged files when there are any (the cancellation raise propagates). -/
def ingestPhase (env : Env) (key : String) (st1 : PState) : PopResult :=
  let tracks := st1.db
  let files := scanFiles env
  let st2 := remove_modified env.fsys tracks st1
  let untagged := filter_untagged tracks files
  if untagged.length ≠ 0 then tag_untagged env key untagged st2 else .ok st2

/-- Lines 44-101, `Populate.__init__`: validate, stop early when no root is
configured, run the ingestion phase (a `PopulateCancelledError` escapes, the
constructor has no handler), then run the post-ingestion stages. -/
def populate (env : Env) (key : String) (st : PState) : PopResult :=
  let st1 := validate_tracks env.fsys st
  if env.rootDirs.length = 0 then .ok st1
  else
    match ingestPhase env key st1 with
    | .cancelled stc => .cancelled stc
    | .ok sto => .ok (postStages env sto)

/-- The state after the stale-entry removal phase of a run (`validate_tracks`
followed by `remove_modified` over the validated rows), before any new
ingestion. -/
def removePhase (fsys : String → Option Nat) (st : PState) : PState :=
  remove_modified fsys (validate_tracks fsys st).db (validate_tracks fsys st)

/-- The untagged set a run computes from a starting state. -/
def untaggedOf (env : Env) (st : PState) : List String :=
  filter_untagged (validate_tracks env.fsys st).db (scanFiles env)

/-- The album hashes currently in the Album store. -/
def albumKeys (s : Stores) : List String :=
  s.albums.map (·.albumhash)

/-- The artist hashes currently in the Artist store. -/
def artistKeys (s : Stores) : List String :=
  s.artists.map (·.artisthash)

/-- A tag record is well formed for the hash function `ah` when every artist
identity it carries has the hash derived from its name, as the spec requires
of `artisthash`. -/
def WFTags (ah : String → String) (tg : Tags) : Prop :=
  (∀ idt ∈ tg.artist, idt.artisthash = ah idt.name) ∧
  (∀ idt ∈ tg.albumartist, idt.artisthash = ah idt.name)

instance (ah : String → String) (tg : Tags) : Decidable (WFTags ah tg) := by
  unfold WFTags; infer_instance

/- ------------------------------------------------------------------ -/
/- Helper lemmas.                                                      -/
/- ------------------------------------------------------------------ -/

theorem toList_append (a b : String) : (a ++ b).toList = a.toList ++ b.toList := by
  simp [String.toList]

/-- Every member of the favorites list occurs as a substring of the joined
favorites string. -/
theorem mem_joinFavs_substr (x : String) :
    ∀ favs : List String, x ∈ favs → isSubstr x (joinFavs favs) = true
  | [], hx => by simp at hx
  | [y], hx => by
      have hxy : x = y := by simpa using hx
      subst hxy
      simp [isSubstr, joinFavs]
  | y :: z :: favs, hx => by
      rcases List.mem_cons.mp hx with hxy | hxm
      · subst hxy
        simp only [isSubstr, joinFavs, decide_eq_true_eq, toList_append]
        exact ⟨[], ("-".toList ++ (joinFavs (z :: favs)).toList), by simp⟩
      · have ih := mem_joinFavs_substr x (z :: favs) hxm
        simp only [isSubstr, decide_eq_true_eq] at ih ⊢
        obtain ⟨u, v, huv⟩ := ih
        refine ⟨(y ++ "-").toList ++ u, v, ?_⟩
        simp only [joinFavs, toList_append]
        rw [← huv]
        simp

/-- `addArtistsFor` never touches the Track store. -/
theorem addArtistsFor_tracks (ah : String → String) :
    ∀ (ids : List ArtistIdentity) (s : Stores), (addArtistsFor ah ids s).tracks = s.tracks
  | [], _ => rfl
  | idt :: ids, s => by
      rw [addArtistsFor]
      split
      · exact addArtistsFor_tracks ah ids s
      · exact addArtistsFor_tracks ah ids _

/-- `addArtistsFor` never touches the Album store. -/
theorem addArtistsFor_albums (ah : String → String) :
    ∀ (ids : List ArtistIdentity) (s : Stores), (addArtistsFor ah ids s).albums = s.albums
  | [], _ => rfl
  | idt :: ids, s => by
      rw [addArtistsFor]
      split
      · exact addArtistsFor_albums ah ids s
      · exact addArtistsFor_albums ah ids _

/-- Ingesting one tag record appends exactly the constructed track to the
Track store. -/
theorem ingestOne_tracks (ah : String → String) (favStr : String) (tg : Tags) (s : Stores) :
    (ingestOne ah favStr tg s).tracks = s.tracks ++ [mkTrack favStr tg] := by
  unfold ingestOne
  rw [addArtistsFor_tracks, addArtistsFor_tracks]
  split <;> rfl

/-- The Track store after processing a file list is the starting store plus
one constructed track per successfully tagged file, in order. -/
theorem processFiles_tracks (ah : String → String) (getTags : String → Option Tags)
    (favStr : String) :
    ∀ (files : List String) (s : Stores),
      (processFiles ah getTags favStr files s).tracks =
        s.tracks ++ (files.filterMap getTags).map (mkTrack favStr)
  | [], s => by simp [processFiles]
  | f :: files, s => by
      cases hg : getTags f with
      | none =>
          have ih := processFiles_tracks ah getTags favStr files s
          simp only [processFiles, List.foldl_cons, hg] at ih ⊢
          simp [ih, List.filterMap_cons, hg]
      | some tg =>
          have ih := processFiles_tracks ah getTags favStr files (ingestOne ah favStr tg s)
          simp only [processFiles, List.foldl_cons, hg] at ih ⊢
          simp [ih, List.filterMap_cons, hg, ingestOne_tracks]

/-- Unfolding step of the loop when the key check passes and the extractor
returns no result: log and continue. -/
theorem tagLoop_cons_none (ah : String → String) (gkey : Nat → String) (key : String)
    (getTags : String → Option Tags) (favStr : String) (f : String) (rest : List String)
    (i : Nat) (s : Stores) (batch : List Tags) (count : Nat)
    (h0 : gkey i = key) (hg : getTags f = none) :
    tagLoop ah gkey key getTags favStr (f :: rest) i s batch count =
      tagLoop ah gkey key getTags favStr rest (i + 1) s batch count := by
  rw [tagLoop, if_neg (by simp [h0]), hg]

/-- Unfolding step of the loop when the key check passes and the extractor
returns a tag record: ingest it and continue. -/
theorem tagLoop_cons_some (ah : String → String) (gkey : Nat → String) (key : String)
    (getTags : String → Option Tags) (favStr : String) (f : String) (rest : List String)
    (i : Nat) (s : Stores) (batch : List Tags) (count : Nat) (tg : Tags)
    (h0 : gkey i = key) (hg : getTags f = some tg) :
    tagLoop ah gkey key getTags favStr (f :: rest) i s batch count =
      tagLoop ah gkey key getTags favStr rest (i + 1)
        (ingestOne ah favStr tg s) (batch ++ [tg]) (count + 1) := by
  rw [tagLoop, if_neg (by simp [h0]), hg]

/-- When every key check up to `n` passes and the check at `n` fails, the
loop stops at `n`: it returns the cancellation signal carrying exactly the
state reached by processing the first `n` files. -/
theorem tagLoop_cancel_spec (ah : String → String) (gkey : Nat → String) (key : String)
    (getTags : String → Option Tags) (favStr : String) :
    ∀ (rest : List String) (n i : Nat) (s : Stores) (batch : List Tags) (count : Nat),
      n < rest.length → (∀ j < n, gkey (i + j) = key) → gkey (i + n) ≠ key →
      tagLoop ah gkey key getTags favStr rest i s batch count =
        .cancelled (processFiles ah getTags favStr (rest.take n) s)
  | [], n, i, s, batch, count, hn, _, _ => absurd hn (by simp)
  | f :: rest, 0, i, s, batch, count, _, _, hcur => by
      simp only [Nat.add_zero] at hcur
      simp [tagLoop, hcur, processFiles]
  | f :: rest, n + 1, i, s, batch, count, hn, hpre, hcur => by
      have h0 : gkey i = key := by simpa using hpre 0 (Nat.succ_pos n)
      have hpre' : ∀ j < n, gkey (i + 1 + j) = key := by
        intro j hj
        have := hpre (j + 1) (by omega)
        simpa [Nat.add_assoc, Nat.add_comm 1 j] using this
      have hcur' : gkey (i + 1 + n) ≠ key := by
        have : i + 1 + n = i + (n + 1) := by omega
        rw [this]; exact hcur
      have hn' : n < rest.length := by simpa using Nat.lt_of_succ_lt_succ hn
      cases hg : getTags f with
      | none =>
          rw [tagLoop_cons_none ah gkey key getTags favStr f rest i s batch count h0 hg,
            tagLoop_cancel_spec ah gkey key getTags favStr rest n (i + 1) s batch count
              hn' hpre' hcur']
          simp [processFiles, hg]
      | some tg =>
          rw [tagLoop_cons_some ah gkey key getTags favStr f rest i s batch count tg h0 hg,
            tagLoop_cancel_spec ah gkey key getTags favStr rest n (i + 1)
              (ingestOne ah favStr tg s) (batch ++ [tg]) (count + 1) hn' hpre' hcur']
          simp [processFiles, hg]

/-- When every key check passes, the loop runs to completion, returning the
fully processed store, the batch of all successfully extracted tag records,
and their count. -/
theorem tagLoop_complete_spec (ah : String → String) (gkey : Nat → String) (key : String)
    (getTags : String → Option Tags) (favStr : String) :
    ∀ (rest : List String) (i : Nat) (s : Stores) (batch : List Tags) (count : Nat),
      (∀ j < rest.length, gkey (i + j) = key) →
      tagLoop ah gkey key getTags favStr rest i s batch count =
        .completed (processFiles ah getTags favStr rest s)
          (batch ++ rest.filterMap getTags) (count + (rest.filterMap getTags).length)
  | [], i, s, batch, count, _ => by simp [tagLoop, processFiles]
  | f :: rest, i, s, batch, count, hpre => by
      have h0 : gkey i = key := by simpa using hpre 0 (by simp)
      have hpre' : ∀ j < rest.length, gkey (i + 1 + j) = key := by
        intro j hj
        have := hpre (j + 1) (by simpa using Nat.succ_lt_succ hj)
        simpa [Nat.add_assoc, Nat.add_comm 1 j] using this
      cases hg : getTags f with
      | none =>
          rw [tagLoop_cons_none ah gkey key getTags favStr f rest i s batch count h0 hg,
            tagLoop_complete_spec ah gkey key getTags favStr rest (i + 1) s batch count hpre']
          simp [processFiles, hg, List.filterMap_cons]
      | some tg =>
          rw [tagLoop_cons_some ah gkey key getTags favStr f rest i s batch count tg h0 hg,
            tagLoop_complete_spec ah gkey key getTags favStr rest (i + 1)
              (ingestOne ah favStr tg s) (batch ++ [tg]) (count + 1) hpre']
          simp only [processFiles, List.foldl_cons, hg, List.filterMap_cons]
          congr 1
          · simp
          · simp; omega

/-- The loop returns the cancellation signal exactly when some per-file check
within the list sees a global key different from the captured one. -/
theorem tagLoop_cancelled_iff (ah : String → String) (gkey : Nat → String) (key : String)
    (getTags : String → Option Tags) (favStr : String) :
    ∀ (rest : List String) (i : Nat) (s : Stores) (batch : List Tags) (count : Nat),
      isCancelled (tagLoop ah gkey key getTags favStr rest i s batch count) = true ↔
        ∃ j < rest.length, gkey (i + j) ≠ key
  | [], i, s, batch, count => by simp [tagLoop, isCancelled]
  | f :: rest, i, s, batch, count => by
      by_cases h0 : gkey i = key
      · have shift : (∃ j < (f :: rest).length, gkey (i + j) ≠ key) ↔
            ∃ j < rest.length, gkey (i + 1 + j) ≠ key := by
          constructor
          · rintro ⟨j, hj, hne⟩
            cases j with
            | zero => exact absurd (by simpa using h0) (by simpa using hne)
            | succ m =>
                exact ⟨m, by simpa using Nat.lt_of_succ_lt_succ hj,
                  by simpa [Nat.add_assoc, Nat.add_comm 1 m] using hne⟩
          · rintro ⟨j, hj, hne⟩
            exact ⟨j + 1, by simpa using Nat.succ_lt_succ hj,
              by simpa [Nat.add_assoc, Nat.add_comm 1 j] using hne⟩
        rw [shift]
        cases hg : getTags f with
        | none =>
            rw [tagLoop_cons_none ah gkey key getTags favStr f rest i s batch count h0 hg]
            exact tagLoop_cancelled_iff ah gkey key getTags favStr rest (i + 1) s batch count
        | some tg =>
            rw [tagLoop_cons_some ah gkey key getTags favStr f rest i s batch count tg h0 hg]
            exact tagLoop_cancelled_iff ah gkey key getTags favStr rest (i + 1)
              (ingestOne ah favStr tg s) (batch ++ [tg]) (count + 1)
      · rw [tagLoop, if_pos (by simp [h0])]
        simp only [isCancelled, true_iff]
        exact ⟨0, by simp, by simpa using h0⟩

/-- The state the ingestion phase produces when no check cancels it: stale
entries removed, every successfully tagged untagged file folded into the
stores, and the batch of extracted tag records appended to the persistent
table. -/
def ingestOk (env : Env) (st1 : PState) : PState :=
  let st2 := remove_modified env.fsys st1.db st1
  let untagged := filter_untagged st1.db (scanFiles env)
  { st2 with
    stores := processFiles env.ah env.getTags (joinFavs env.favs) untagged st2.stores,
    db := st2.db ++ untagged.filterMap env.getTags }

/-- When the observed global key never differs from the captured one, the
ingestion phase completes normally and produces `ingestOk`. -/
theorem ingestPhase_no_cancel (env : Env) (key : String) (st1 : PState)
    (hkey : ∀ i, env.gkey i = key) :
    ingestPhase env key st1 = .ok (ingestOk env st1) := by
  unfold ingestPhase ingestOk
  by_cases hlen : (filter_untagged st1.db (scanFiles env)).length ≠ 0
  · rw [if_pos hlen]
    unfold tag_untagged
    rw [tagLoop_complete_spec env.ah env.gkey key env.getTags (joinFavs env.favs)
      (filter_untagged st1.db (scanFiles env)) 0
      (remove_modified env.fsys st1.db st1).stores [] 0 (fun j _ => by simpa using hkey j)]
    simp only [List.nil_append, Nat.zero_add]
    split
    · rfl
    · next hb =>
        have hbnil : (filter_untagged st1.db (scanFiles env)).filterMap env.getTags = [] := by
          cases hfm : (filter_untagged st1.db (scanFiles env)).filterMap env.getTags with
          | nil => rfl
          | cons a l => rw [hfm] at hb; simp at hb
        rw [hbnil]
        simp
  · rw [if_neg hlen]
    have hnil : filter_untagged st1.db (scanFiles env) = [] := by
      have := Nat.eq_zero_of_not_pos (fun hpos => hlen (Nat.pos_iff_ne_zero.mp hpos))
      exact List.length_eq_zero.mp (by omega)
    rw [hnil]
    simp [processFiles]

/-- When the observed global key never differs from the captured one and at
least one root directory is configured, the whole pipeline call returns
normally with the post-processing stages applied to the ingested state. -/
theorem populate_no_cancel (env : Env) (key : String) (st : PState)
    (hkey : ∀ i, env.gkey i = key) (hroot : env.rootDirs.length ≠ 0) :
    populate env key st =
      .ok (postStages env (ingestOk env (validate_tracks env.fsys st))) := by
  unfold populate
  rw [if_neg hroot, ingestPhase_no_cancel env key (validate_tracks env.fsys st) hkey]

theorem album_exists_iff (s : Stores) (h : String) :
    album_exists s h = true ↔ h ∈ albumKeys s := by
  simp [album_exists, albumKeys, List.any_eq_true, beq_iff_eq, List.mem_map]

theorem artist_exists_iff (s : Stores) (h : String) :
    artist_exists s h = true ↔ h ∈ artistKeys s := by
  simp [artist_exists, artistKeys, List.any_eq_true, beq_iff_eq, List.mem_map]

/-- Artist hashes already in the store survive `addArtistsFor`. -/
theorem addArtistsFor_keys_mono (ah : String → String) :
    ∀ (ids : List ArtistIdentity) (s : Stores) (h : String),
      h ∈ artistKeys s → h ∈ artistKeys (addArtistsFor ah ids s)
  | [], _, _, hm => hm
  | idt :: ids, s, h, hm => by
      rw [addArtistsFor]
      split
      · exact addArtistsFor_keys_mono ah ids s h hm
      · refine addArtistsFor_keys_mono ah ids _ h ?_
        simp only [artistKeys, List.map_append] at *
        exact List.mem_append_left _ hm

/-- After `addArtistsFor` every processed identity's hash is in the store,
provided each identity is hash-consistent with its name. -/
theorem addArtistsFor_covers (ah : String → String) :
    ∀ (ids : List ArtistIdentity) (s : Stores),
      (∀ idt ∈ ids, idt.artisthash = ah idt.name) →
      ∀ idt ∈ ids, idt.artisthash ∈ artistKeys (addArtistsFor ah ids s)
  | [], _, _, _, hm => by simp at hm
  | idt :: ids, s, hwf, idt', hm => by
      rw [addArtistsFor]
      rcases List.mem_cons.mp hm with rfl | hm'
      · split
        · next hex =>
            exact addArtistsFor_keys_mono ah ids s _ ((artist_exists_iff s _).mp hex)
        · next hex =>
            refine addArtistsFor_keys_mono ah ids _ _ ?_
            have : idt'.artisthash = ah idt'.name := hwf idt' (List.mem_cons_self _ _)
            simp [artistKeys, mkArtist, this]
      · have hwf' : ∀ x ∈ ids, x.artisthash = ah x.name :=
          fun x hx => hwf x (List.mem_cons_of_mem _ hx)
        split
        · exact addArtistsFor_covers ah ids s hwf' idt' hm'
        · exact addArtistsFor_covers ah ids _ hwf' idt' hm'

/-- `addArtistsFor` preserves distinctness of the artist hashes, provided
each identity is hash-consistent with its name. -/
theorem addArtistsFor_nodup (ah : String → String) :
    ∀ (ids : List ArtistIdentity) (s : Stores),
      (∀ idt ∈ ids, idt.artisthash = ah idt.name) →
      (artistKeys s).Nodup → (artistKeys (addArtistsFor ah ids s)).Nodup
  | [], _, _, hnd => hnd
  | idt :: ids, s, hwf, hnd => by
      have hwf' : ∀ x ∈ ids, x.artisthash = ah x.name :=
        fun x hx => hwf x (List.mem_cons_of_mem _ hx)
      rw [addArtistsFor]
      split
      · exact addArtistsFor_nodup ah ids s hwf' hnd
      · next hex =>
          refine addArtistsFor_nodup ah ids _ hwf' ?_
          have hnot : idt.artisthash ∉ artistKeys s := fun hm =>
            (by simpa [hex] using (artist_exists_iff s idt.artisthash).mpr hm : False)
          have hkeys : artistKeys { s with artists := s.artists ++ [mkArtist ah idt.name] } =
              artistKeys s ++ [ah idt.name] := by
            simp [artistKeys, mkArtist]
          rw [hkeys]
          have : ah idt.name ∉ artistKeys s := by
            rw [← hwf idt (List.mem_cons_self _ _)]; exact hnot
          simp [List.nodup_append, hnd, this]

/-- `ingestOne` leaves the album-hash list either unchanged or extended by
the new track's hash, so membership is monotone. -/
theorem ingestOne_albumKeys_mono (ah : String → String) (favStr : String) (tg : Tags)
    (s : Stores) (h : String) (hm : h ∈ albumKeys s) :
    h ∈ albumKeys (ingestOne ah favStr tg s) := by
  unfold ingestOne
  simp only [albumKeys, addArtistsFor_albums]
  split
  · exact hm
  · simp only [List.map_append]
    exact List.mem_append_left _ (by simpa [albumKeys] using hm)

/-- After `ingestOne` the ingested track's album hash is in the Album store. -/
theorem ingestOne_album_covers (ah : String → String) (favStr : String) (tg : Tags)
    (s : Stores) : tg.albumhash ∈ albumKeys (ingestOne ah favStr tg s) := by
  unfold ingestOne
  simp only [albumKeys, addArtistsFor_albums]
  split
  · next hex =>
      simpa [albumKeys, mkTrack] using
        (album_exists_iff _ (mkTrack favStr tg).albumhash).mp hex
  · simp [create_album, mkTrack]

/-- `ingestOne` preserves distinctness of the album hashes. -/
theorem ingestOne_album_nodup (ah : String → String) (favStr : String) (tg : Tags)
    (s : Stores) (hnd : (albumKeys s).Nodup) :
    (albumKeys (ingestOne ah favStr tg s)).Nodup := by
  unfold ingestOne
  simp only [albumKeys, addArtistsFor_albums]
  split
  · exact hnd
  · next hex =>
      have hnot : (mkTrack favStr tg).albumhash ∉ albumKeys s := fun hm =>
        (by simpa [hex] using
          (album_exists_iff { s with tracks := s.tracks ++ [mkTrack favStr tg] }
            (mkTrack favStr tg).albumhash).mpr (by simpa [albumKeys] using hm) : False)
      simp only [List.map_append]
      simpa [List.nodup_append, albumKeys, create_album] using ⟨by simpa [albumKeys] using hnd,
        by simpa [albumKeys] using hnot⟩

/-- Artist hashes already in the store survive `ingestOne`. -/
theorem ingestOne_artistKeys_mono (ah : String → String) (favStr : String) (tg : Tags)
    (s : Stores) (h : String) (hm : h ∈ artistKeys s) :
    h ∈ artistKeys (ingestOne ah favStr tg s) := by
  unfold ingestOne
  refine addArtistsFor_keys_mono ah _ _ h (addArtistsFor_keys_mono ah _ _ h ?_)
  split
  · exact hm
  · simpa [artistKeys] using hm

/-- After `ingestOne` every artist identity of the ingested track, in either
role, has its hash in the Artist store. -/
theorem ingestOne_artist_covers (ah : String → String) (favStr : String) (tg : Tags)
    (s : Stores) (hwf : WFTags ah tg) :
    ∀ idt ∈ tg.artist ++ tg.albumartist,
      idt.artisthash ∈ artistKeys (ingestOne ah favStr tg s) := by
  intro idt hm
  unfold ingestOne
  rcases List.mem_append.mp hm with hrole | hrole
  · refine addArtistsFor_keys_mono ah _ _ _ ?_
    exact addArtistsFor_covers ah _ _ (by simpa [mkTrack] using hwf.1) idt
      (by simpa [mkTrack] using hrole)
  · exact addArtistsFor_covers ah _ _ (by simpa [mkTrack] using hwf.2) idt
      (by simpa [mkTrack] using hrole)

/-- `ingestOne` preserves distinctness of the artist hashes. -/
theorem ingestOne_artist_nodup (ah : String → String) (favStr : String) (tg : Tags)
    (s : Stores) (hwf : WFTags ah tg) (hnd : (artistKeys s).Nodup) :
    (artistKeys (ingestOne ah favStr tg s)).Nodup := by
  unfold ingestOne
  refine addArtistsFor_nodup ah _ _ (by simpa [mkTrack] using hwf.2)
    (addArtistsFor_nodup ah _ _ (by simpa [mkTrack] using hwf.1) ?_)
  split
  · exact hnd
  · simpa [artistKeys] using hnd

/-- A track's deduplication keys are all present in the stores: its album
hash in the Album store and each of its artist identities' hashes, in both
roles, in the Artist store. -/
def keysPresent (s : Stores) (tr : Track) : Prop :=
  tr.albumhash ∈ albumKeys s ∧
  ∀ idt ∈ tr.artist ++ tr.albumartist, idt.artisthash ∈ artistKeys s

/-- Album hashes already in the store survive `processFiles`. -/
theorem processFiles_albumKeys_mono (ah : String → String) (getTags : String → Option Tags)
    (favStr : String) :
    ∀ (files : List String) (s : Stores) (h : String),
      h ∈ albumKeys s → h ∈ albumKeys (processFiles ah getTags favStr files s)
  | [], _, _, hm => hm
  | f :: files, s, h, hm => by
      cases hg : getTags f with
      | none =>
          simpa [processFiles, hg] using
            processFiles_albumKeys_mono ah getTags favStr files s h hm
      | some tg =>
          simpa [processFiles, hg] using
            processFiles_albumKeys_mono ah getTags favStr files (ingestOne ah favStr tg s) h
              (ingestOne_albumKeys_mono ah favStr tg s h hm)

/-- Artist hashes already in the store survive `processFiles`. -/
theorem processFiles_artistKeys_mono (ah : String → String) (getTags : String → Option Tags)
    (favStr : String) :
    ∀ (files : List String) (s : Stores) (h : String),
      h ∈ artistKeys s → h ∈ artistKeys (processFiles ah getTags favStr files s)
  | [], _, _, hm => hm
  | f :: files, s, h, hm => by
      cases hg : getTags f with
      | none =>
          simpa [processFiles, hg] using
            processFiles_artistKeys_mono ah getTags favStr files s h hm
      | some tg =>
          simpa [processFiles, hg] using
            processFiles_artistKeys_mono ah getTags favStr files (ingestOne ah favStr tg s) h
              (ingestOne_artistKeys_mono ah favStr tg s h hm)

/-- Processing any file list preserves distinctness of both hash lists and
leaves every newly appended track with all its keys present in the final
stores. -/
theorem processFiles_dedup (ah : String → String) (getTags : String → Option Tags)
    (favStr : String) (hwf : ∀ f tg, getTags f = some tg → WFTags ah tg) :
    ∀ (files : List String) (s : Stores),
      (albumKeys s).Nodup → (artistKeys s).Nodup →
      (albumKeys (processFiles ah getTags favStr files s)).Nodup ∧
      (artistKeys (processFiles ah getTags favStr files s)).Nodup ∧
      ∀ tr ∈ (processFiles ah getTags favStr files s).tracks.drop s.tracks.length,
        keysPresent (processFiles ah getTags favStr files s) tr
  | [], s, hA, hR => by
      refine ⟨hA, hR, ?_⟩
      simp [processFiles]
  | f :: files, s, hA, hR => by
      cases hg : getTags f with
      | none =>
          have ih := processFiles_dedup ah getTags favStr hwf files s hA hR
          simpa [processFiles, hg] using ih
      | some tg =>
          have hwftg : WFTags ah tg := hwf f tg hg
          have ih := processFiles_dedup ah getTags favStr hwf files (ingestOne ah favStr tg s)
            (ingestOne_album_nodup ah favStr tg s hA)
            (ingestOne_artist_nodup ah favStr tg s hwftg hR)
          refine ⟨by simpa [processFiles, hg] using ih.1,
                  by simpa [processFiles, hg] using ih.2.1, ?_⟩
          intro tr htr
          have hstep : processFiles ah getTags favStr (f :: files) s =
              processFiles ah getTags favStr files (ingestOne ah favStr tg s) := by
            simp [processFiles, hg]
          rw [hstep] at htr ⊢
          rw [processFiles_tracks, ingestOne_tracks, List.append_assoc, List.drop_left,
            List.singleton_append] at htr
          rcases List.mem_cons.mp htr with rfl | htail
          · constructor
            · exact processFiles_albumKeys_mono ah getTags favStr files _ _
                (by simpa [mkTrack] using ingestOne_album_covers ah favStr tg s)
            · intro idt hidt
              refine processFiles_artistKeys_mono ah getTags favStr files _ _ ?_
              exact ingestOne_artist_covers ah favStr tg s hwftg idt
                (by simpa [mkTrack] using hidt)
          · refine ih.2.2 tr ?_
            rw [processFiles_tracks, ingestOne_tracks, List.drop_left]
            exact htail

/-- Whatever the cancellation behaviour, the stores a run of the loop leaves
behind are those obtained by processing some leading segment of the files. -/
theorem tagLoop_outcomeStores (ah : String → String) (gkey : Nat → String) (key : String)
    (getTags : String → Option Tags) (favStr : String) :
    ∀ (rest : List String) (i : Nat) (s : Stores) (batch : List Tags) (count : Nat),
      ∃ m ≤ rest.length,
        outcomeStores (tagLoop ah gkey key getTags favStr rest i s batch count) =
          processFiles ah getTags favStr (rest.take m) s
  | [], i, s, batch, count => ⟨0, by simp, by simp [tagLoop, outcomeStores, processFiles]⟩
  | f :: rest, i, s, batch, count => by
      by_cases h0 : gkey i = key
      · cases hg : getTags f with
        | none =>
            obtain ⟨m, hm, hout⟩ :=
              tagLoop_outcomeStores ah gkey key getTags favStr rest (i + 1) s batch count
            refine ⟨m + 1, by simpa using Nat.succ_le_succ hm, ?_⟩
            rw [tagLoop_cons_none ah gkey key getTags favStr f rest i s batch count h0 hg, hout]
            simp [processFiles, hg]
        | some tg =>
            obtain ⟨m, hm, hout⟩ :=
              tagLoop_outcomeStores ah gkey key getTags favStr rest (i + 1)
                (ingestOne ah favStr tg s) (batch ++ [tg]) (count + 1)
            refine ⟨m + 1, by simpa using Nat.succ_le_succ hm, ?_⟩
            rw [tagLoop_cons_some ah gkey key getTags favStr f rest i s batch count tg h0 hg,
              hout]
            simp [processFiles, hg]
      · refine ⟨0, by simp, ?_⟩
        rw [tagLoop, if_pos (by simp [h0])]
        simp [outcomeStores, processFiles]

/-- In a list whose image under `f` has no duplicates, an element of the
image is hit exactly once. -/
theorem countP_eq_one_of_nodup {α : Type} (f : α → String) :
    ∀ (l : List α) (h : String), (l.map f).Nodup → h ∈ l.map f →
      l.countP (fun a => f a == h) = 1
  | [], h, _, hmem => by simp at hmem
  | a :: l, h, hnd, hmem => by
      rw [List.map_cons, List.nodup_cons] at hnd
      rw [List.countP_cons]
      by_cases hah : f a = h
      · have hz : l.countP (fun x => f x == h) = 0 := by
          rw [List.countP_eq_zero]
          intro x hx
          simp only [beq_iff_eq]
          intro hfx
          exact hnd.1 (by rw [hah, ← hfx]; exact List.mem_map_of_mem f hx)
        simp [hz, hah]
      · have hmem' : h ∈ l.map f := by
          rw [List.map_cons] at hmem
          rcases List.mem_cons.mp hmem with h1 | h1
          · exact absurd h1.symm hah
          · exact h1
        rw [countP_eq_one_of_nodup f l h hnd.2 hmem']
        simp [hah]

theorem validate_db_mem (fsys : String → Option Nat) (st : PState) (r : Tags) :
    r ∈ (validate_tracks fsys st).db ↔ r ∈ st.db ∧ (fsys r.filepath).isSome := by
  simp [validate_tracks, List.mem_filter]

theorem validate_tracks_mem (fsys : String → Option Nat) (st : PState) (t : Track) :
    t ∈ (validate_tracks fsys st).stores.tracks ↔
      t ∈ st.stores.tracks ∧ (fsys t.filepath).isSome := by
  simp [validate_tracks, List.mem_filter]

theorem remove_modified_db_mem (fsys : String → Option Nat) (tracks : List Tags)
    (st : PState) (r : Tags) :
    r ∈ (remove_modified fsys tracks st).db ↔
      r ∈ st.db ∧ r.filepath ∉
        (tracks.filter (fun t => t.last_mod ≠ getmtime fsys t.filepath)).map (·.filepath) := by
  simp [remove_modified, List.mem_filter]

theorem remove_modified_tracks_mem (fsys : String → Option Nat) (tracks : List Tags)
    (st : PState) (t : Track) :
    t ∈ (remove_modified fsys tracks st).stores.tracks ↔
      t ∈ st.stores.tracks ∧ t.filepath ∉
        (tracks.filter (fun x => x.last_mod ≠ getmtime fsys x.filepath)).map (·.filepath) := by
  simp [remove_modified, List.mem_filter]

/-- After the removal phase no entry — persistent row or in-memory track —
keeps the filepath of a known row that is unreadable or whose recorded
mtime no longer matches the filesystem. -/
theorem removePhase_clears_stale (fsys : String → Option Nat) (st : PState) (row : Tags)
    (hrow : row ∈ st.db)
    (hstale : fsys row.filepath = none ∨ fsys row.filepath ≠ some row.last_mod) :
    (∀ r ∈ (removePhase fsys st).db, r.filepath ≠ row.filepath) ∧
    (∀ t ∈ (removePhase fsys st).stores.tracks, t.filepath ≠ row.filepath) := by
  cases hfs : fsys row.filepath with
  | none =>
      constructor
      · intro r hr heq
        have hr1 := ((remove_modified_db_mem fsys _ _ r).mp hr).1
        have hs := ((validate_db_mem fsys st r).mp hr1).2
        rw [heq, hfs] at hs
        simp at hs
      · intro t ht heq
        have ht1 := ((remove_modified_tracks_mem fsys _ _ t).mp ht).1
        have hs := ((validate_tracks_mem fsys st t).mp ht1).2
        rw [heq, hfs] at hs
        simp at hs
  | some m =>
      have hmm : row.last_mod ≠ m := by
        rcases hstale with h | h
        · rw [hfs] at h; cases h
        · rw [hfs] at h; intro he; exact h (by rw [he])
      have hrowv : row ∈ (validate_tracks fsys st).db :=
        (validate_db_mem fsys st row).mpr ⟨hrow, by simp [hfs]⟩
      have hmod : row.filepath ∈
          ((validate_tracks fsys st).db.filter
            (fun t => t.last_mod ≠ getmtime fsys t.filepath)).map (·.filepath) := by
        refine List.mem_map_of_mem _ (List.mem_filter.mpr ⟨hrowv, ?_⟩)
        simp [getmtime, hfs, hmm]
      constructor
      · intro r hr heq
        have hnot := ((remove_modified_db_mem fsys _ _ r).mp hr).2
        rw [heq] at hnot
        exact hnot hmod
      · intro t ht heq
        have hnot := ((remove_modified_tracks_mem fsys _ _ t).mp ht).2
        rw [heq] at hnot
        exact hnot hmod

/-- The post-ingestion stages touch no store and no persistent row, always
run the thumbnail stage, and leave the enrichment-completed marker alone
unless enrichment succeeds. -/
theorem postStages_fields (env : Env) (st : PState) :
    (postStages env st).stores = st.stores ∧ (postStages env st).db = st.db ∧
    (postStages env st).thumbnailsRun = true ∧
    (env.net ≠ .ok → (postStages env st).enrichmentCompleted = st.enrichmentCompleted) := by
  unfold postStages
  by_cases hp : env.ping <;> cases hn : env.net <;> simp [hp, hn]

/-- Neither stale-entry removal nor the ingestion fold changes the
stage markers of the pipeline state. -/
theorem ingest_markers (env : Env) (st : PState) :
    (ingestOk env (validate_tracks env.fsys st)).thumbnailsRun = st.thumbnailsRun ∧
    (ingestOk env (validate_tracks env.fsys st)).albumColorsRuns = st.albumColorsRuns ∧
    (ingestOk env (validate_tracks env.fsys st)).artistColorsRuns = st.artistColorsRuns ∧
    (ingestOk env (validate_tracks env.fsys st)).enrichmentCompleted = st.enrichmentCompleted := by
  unfold ingestOk validate_tracks remove_modified
  simp

/-- Operational characterization of a whole pipeline run: either no root is
configured and the run stops after validation; or the untagged set is empty
and the run post-processes the removal-phase state; or the tag loop
completes and the run post-processes the ingested state (batch appended when
non-empty); or the tag loop cancels and the escaped signal carries the
removal-phase state with the loop's stores. -/
theorem populate_cases (env : Env) (key : String) (st : PState) :
    (env.rootDirs.length = 0 ∧ populate env key st = .ok (validate_tracks env.fsys st)) ∨
    (env.rootDirs.length ≠ 0 ∧ (untaggedOf env st).length = 0 ∧
      populate env key st = .ok (postStages env (removePhase env.fsys st))) ∨
    (env.rootDirs.length ≠ 0 ∧
      ∃ s batch count,
        tagLoop env.ah env.gkey key env.getTags (joinFavs env.favs) (untaggedOf env st) 0
          (removePhase env.fsys st).stores [] 0 = .completed s batch count ∧
        populate env key st = .ok (postStages env
          { (removePhase env.fsys st) with
            stores := s
            db := if 0 < batch.length then (removePhase env.fsys st).db ++ batch
                  else (removePhase env.fsys st).db })) ∨
    (env.rootDirs.length ≠ 0 ∧
      ∃ s,
        tagLoop env.ah env.gkey key env.getTags (joinFavs env.favs) (untaggedOf env st) 0
          (removePhase env.fsys st).stores [] 0 = .cancelled s ∧
        populate env key st = .cancelled { (removePhase env.fsys st) with stores := s }) := by
  by_cases hroot : env.rootDirs.length = 0
  · left
    refine ⟨hroot, ?_⟩
    unfold populate
    rw [if_pos hroot]
  · right
    by_cases hlen : (untaggedOf env st).length = 0
    · left
      refine ⟨hroot, hlen, ?_⟩
      unfold populate
      rw [if_neg hroot]
      unfold ingestPhase
      rw [if_neg (not_not_intro (by simpa [untaggedOf] using hlen))]
      rfl
    · cases houtc : tagLoop env.ah env.gkey key env.getTags (joinFavs env.favs)
          (untaggedOf env st) 0 (removePhase env.fsys st).stores [] 0 with
      | completed s batch count =>
          right; left
          refine ⟨hroot, s, batch, count, rfl, ?_⟩
          unfold untaggedOf removePhase at houtc
          unfold populate
          rw [if_neg hroot]
          unfold ingestPhase
          rw [if_pos (by simpa [untaggedOf] using hlen)]
          unfold tag_untagged
          rw [houtc]
          rfl
      | cancelled s =>
          right; right
          refine ⟨hroot, s, rfl, ?_⟩
          unfold untaggedOf removePhase at houtc
          unfold populate
          rw [if_neg hroot]
          unfold ingestPhase
          rw [if_pos (by simpa [untaggedOf] using hlen)]
          unfold tag_untagged
          rw [houtc]
          rfl

/-- Every file in the computed untagged set was produced by the scanner, so
under the scan contract it is readable. -/
theorem untaggedOf_exists (env : Env) (st : PState)
    (hscan : ∀ d, ∀ f ∈ env.scandir d, (env.fsys f).isSome) :
    ∀ f ∈ untaggedOf env st, (env.fsys f).isSome := by
  intro f hf
  unfold untaggedOf filter_untagged at hf
  rw [List.mem_dedup] at hf
  have hfile := (List.mem_filter.mp hf).1
  unfold scanFiles at hfile
  rcases List.mem_flatMap.mp hfile with ⟨d, hd, hfd⟩
  exact hscan d f hfd

/-- Any store state the tag loop leaves behind contains no track whose
filepath names a known row that is unreadable on disk, provided the scanner
only yields readable files and the extractor reports faithful paths. -/
theorem loopStores_no_stale (env : Env) (key : String) (st : PState) (row : Tags)
    (hrow : row ∈ st.db) (hnone : env.fsys row.filepath = none)
    (htagc : ∀ f tg, env.getTags f = some tg → tg.filepath = f)
    (hscan : ∀ d, ∀ f ∈ env.scandir d, (env.fsys f).isSome)
    (s : Stores)
    (hout : outcomeStores (tagLoop env.ah env.gkey key env.getTags (joinFavs env.favs)
      (untaggedOf env st) 0 (removePhase env.fsys st).stores [] 0) = s) :
    ∀ t ∈ s.tracks, t.filepath ≠ row.filepath := by
  obtain ⟨m, hm, hout2⟩ := tagLoop_outcomeStores env.ah env.gkey key env.getTags
    (joinFavs env.favs) (untaggedOf env st) 0 (removePhase env.fsys st).stores [] 0
  rw [hout] at hout2
  intro t ht heq
  rw [hout2, processFiles_tracks] at ht
  rcases List.mem_append.mp ht with hleft | hright
  · exact (removePhase_clears_stale env.fsys st row hrow (Or.inl hnone)).2 t hleft heq
  · rcases List.mem_map.mp hright with ⟨tg, htg, htr⟩
    rcases List.mem_filterMap.mp htg with ⟨f, hf, hgf⟩
    have hfu : f ∈ untaggedOf env st := List.take_subset m _ hf
    have hex := untaggedOf_exists env st hscan f hfu
    have hfp : t.filepath = f := by
      rw [← htr]
      show tg.filepath = f
      exact htagc f tg hgf
    have hfrow : f = row.filepath := by rw [← hfp, heq]
    rw [hfrow, hnone] at hex
    simp at hex

/-- C4: before any new ingestion begins, every known track row whose
filepath is no longer readable from disk, or whose recorded `last_mod` no
longer equals the file's current mtime, is deleted, keyed by filepath, from
both the persistent Track table and the in-memory Track store by the removal
phase; in particular, when the file was deleted from disk (and the scanner
only yields readable files whose extracted tags carry their own path), the
Track store after the whole run — however it ends — contains no entry for
that filepath. -/
theorem stale_tracks_removed (env : Env) (key : String) (st : PState) (row : Tags)
    (hrow : row ∈ st.db)
    (hstale : env.fsys row.filepath = none ∨ env.fsys row.filepath ≠ some row.last_mod) :
    (∀ r ∈ (removePhase env.fsys st).db, r.filepath ≠ row.filepath) ∧
    (∀ t ∈ (removePhase env.fsys st).stores.tracks, t.filepath ≠ row.filepath) ∧
    (env.fsys row.filepath = none →
      (∀ f tg, env.getTags f = some tg → tg.filepath = f) →
      (∀ d, ∀ f ∈ env.scandir d, (env.fsys f).isSome) →
      ∀ st', populate env key st = .ok st' ∨ populate env key st = .cancelled st' →
        ∀ t ∈ st'.stores.tracks, t.filepath ≠ row.filepath) := by
  have base := removePhase_clears_stale env.fsys st row hrow hstale
  refine ⟨base.1, base.2, ?_⟩
  intro hnone htagc hscan st' hrun t ht heq
  rcases populate_cases env key st with ⟨hroot, heq1⟩ | ⟨hroot, hlen, heq1⟩ |
    ⟨hroot, s, batch, count, houtc, heq1⟩ | ⟨hroot, s, houtc, heq1⟩
  · rcases hrun with h | h <;> rw [h] at heq1
    · injection heq1 with h2
      rw [h2] at ht
      have hs := ((validate_tracks_mem env.fsys st t).mp ht).2
      rw [heq, hnone] at hs
      simp at hs
    · simp at heq1
  · rcases hrun with h | h <;> rw [h] at heq1
    · injection heq1 with h2
      rw [h2, (postStages_fields env _).1] at ht
      exact base.2 t ht heq
    · simp at heq1
  · rcases hrun with h | h <;> rw [h] at heq1
    · injection heq1 with h2
      rw [h2, (postStages_fields env _).1] at ht
      exact loopStores_no_stale env key st row hrow hnone htagc hscan s
        (by rw [houtc]; rfl) t ht heq
    · simp at heq1
  · rcases hrun with h | h <;> rw [h] at heq1
    · simp at heq1
    · injection heq1 with h2
      rw [h2] at ht
      exact loopStores_no_stale env key st row hrow hnone htagc hscan s
        (by rw [houtc]; rfl) t ht heq

/- ------------------------------------------------------------------ -/
/- Concrete data used by the witness theorems.                         -/
/- ------------------------------------------------------------------ -/

/-- A concrete observed-key sequence: the global key is `"k1"` at the first
check and `"k2"` afterwards. -/
def wgkey (i : Nat) : String :=
  if i = 0 then "k1" else "k2"

/-- A concrete tag record used by witnesses. -/
def wtg : Tags :=
  { trackhash := "th1", albumhash := "ah1", filepath := "/music/a.mp3", last_mod := 7,
    artist := [⟨"X", "X"⟩], albumartist := [⟨"X", "X"⟩] }

/-- A concrete empty store triple. -/
def wstores : Stores :=
  { tracks := [], albums := [], artists := [] }

/-- A concrete empty pipeline state. -/
def wpstate : PState :=
  { stores := wstores, db := [], thumbnailsRun := false, albumColorsRuns := 0,
    artistColorsRuns := 0, enrichmentCompleted := false }

/-- A concrete tag record whose trackhash straddles the `"-"` separator the
favorites hashes are joined with. -/
def tgBC : Tags :=
  { trackhash := "b-c", albumhash := "alb", filepath := "/music/x.mp3", last_mod := 3,
    artist := [], albumartist := [] }

/-- A concrete environment with favorites `["ab", "cd"]` and a single
taggable file. -/
def envC2 : Env :=
  { ah := fun n => n, scandir := fun _ => ["/music/x.mp3"], fsys := fun _ => some 3,
    getTags := fun _ => some tgBC, favs := ["ab", "cd"], gkey := fun _ => "k",
    ping := false, net := .ok, rootDirs := ["/music"], userHome := "/home/u" }

/-- A concrete environment whose connectivity probe succeeds but whose
enrichment stage then raises a connection error; the library is empty. -/
def envNet : Env :=
  { ah := fun n => n, scandir := fun _ => [], fsys := fun _ => some 1,
    getTags := fun _ => none, favs := [], gkey := fun _ => "k",
    ping := true, net := .connError, rootDirs := ["/music"], userHome := "/home/u" }

/-- A concrete environment whose first configured root is the `"$home"`
sentinel, followed by a real root that holds a file. -/
def envC9 : Env :=
  { ah := fun n => n,
    scandir := fun d => if d = "/music" then ["/music/a.mp3"] else [],
    fsys := fun _ => some 1, getTags := fun _ => none, favs := [],
    gkey := fun _ => "k", ping := false, net := .ok,
    rootDirs := ["$home", "/music"], userHome := "/home/u" }

/- ------------------------------------------------------------------ -/
/- Claim theorems.                                                     -/
/- ------------------------------------------------------------------ -/

/-- C1: If, at the start of a file's iteration in the tag-ingestion loop, the
process-wide current session key differs from the key the loop captured, the
loop stops before processing any further file: it returns the dedicated
cancellation signal (the `PopulateCancelledError` constructor, distinct from
ordinary error handling, which merely logs and continues) carrying exactly
the store state reached by the files processed before the change, and every
track added to the in-memory Track store before the key change remains in
that store. -/
theorem tag_loop_stops_on_key_change (ah : String → String) (gkey : Nat → String)
    (key : String) (getTags : String → Option Tags) (favStr : String)
    (untagged : List String) (s : Stores) (n : Nat)
    (hn : n < untagged.length) (hpre : ∀ j < n, gkey j = key) (hcur : gkey n ≠ key) :
    tagLoop ah gkey key getTags favStr untagged 0 s [] 0 =
      .cancelled (processFiles ah getTags favStr (untagged.take n) s) ∧
    s.tracks <+: (processFiles ah getTags favStr (untagged.take n) s).tracks := by
  have h1 := tagLoop_cancel_spec ah gkey key getTags favStr untagged n 0 s [] 0 hn
    (by intro j hj; simpa using hpre j hj) (by simpa using hcur)
  refine ⟨h1, ?_⟩
  rw [processFiles_tracks]
  exact ⟨_, rfl⟩

theorem tag_loop_stops_on_key_change_witness :
    tagLoop (fun x => x) wgkey "k1" (fun _ => some wtg) "ab-cd" ["/music/a.mp3", "/music/b.mp3"] 0 wstores [] 0 =
      .cancelled (processFiles (fun x => x) (fun _ => some wtg) "ab-cd"
        (["/music/a.mp3", "/music/b.mp3"].take 1) wstores) ∧
    wstores.tracks <+: (processFiles (fun x => x) (fun _ => some wtg) "ab-cd"
        (["/music/a.mp3", "/music/b.mp3"].take 1) wstores).tracks :=
  tag_loop_stops_on_key_change (fun x => x) wgkey "k1" (fun _ => some wtg) "ab-cd"
    ["/music/a.mp3", "/music/b.mp3"] wstores 1 (by decide) (by decide) (by decide)

/-- C10: Session supersession fires only on key inequality: the loop raises
the cancellation signal exactly when the process-wide key observed at some
per-file check differs from the captured key; in particular, when every
observed key equals the captured one (e.g. a new run was started with an
equal key) the loop is not cancelled and runs to completion over all files. -/
theorem cancel_iff_key_mismatch (ah : String → String) (gkey : Nat → String)
    (key : String) (getTags : String → Option Tags) (favStr : String)
    (untagged : List String) (s : Stores) :
    (isCancelled (tagLoop ah gkey key getTags favStr untagged 0 s [] 0) = true ↔
      ∃ i < untagged.length, gkey i ≠ key) ∧
    ((∀ i < untagged.length, gkey i = key) →
      tagLoop ah gkey key getTags favStr untagged 0 s [] 0 =
        .completed (processFiles ah getTags favStr untagged s)
          (untagged.filterMap getTags) (untagged.filterMap getTags).length) := by
  constructor
  · simpa using tagLoop_cancelled_iff ah gkey key getTags favStr untagged 0 s [] 0
  · intro hall
    have h := tagLoop_complete_spec ah gkey key getTags favStr untagged 0 s [] 0
      (by intro j hj; simpa using hall j hj)
    simpa using h

theorem cancel_iff_key_mismatch_witness :
    (isCancelled (tagLoop (fun x => x) (fun _ => "k1") "k1" (fun _ => some wtg) "ab-cd"
        ["/music/a.mp3", "/music/b.mp3"] 0 wstores [] 0) = true ↔
      ∃ i < (["/music/a.mp3", "/music/b.mp3"] : List String).length, (fun _ => "k1") i ≠ "k1") ∧
    ((∀ i < (["/music/a.mp3", "/music/b.mp3"] : List String).length, (fun _ => "k1") i = "k1") →
      tagLoop (fun x => x) (fun _ => "k1") "k1" (fun _ => some wtg) "ab-cd"
          ["/music/a.mp3", "/music/b.mp3"] 0 wstores [] 0 =
        .completed (processFiles (fun x => x) (fun _ => some wtg) "ab-cd"
            ["/music/a.mp3", "/music/b.mp3"] wstores)
          (["/music/a.mp3", "/music/b.mp3"].filterMap (fun _ => some wtg))
          (["/music/a.mp3", "/music/b.mp3"].filterMap (fun _ => some wtg)).length) :=
  cancel_iff_key_mismatch (fun x => x) (fun _ => "k1") "k1" (fun _ => some wtg) "ab-cd"
    ["/music/a.mp3", "/music/b.mp3"] wstores

/-- C2 counterexample: with favorites hashes `["ab", "cd"]`, tagging a file
whose trackhash is `"b-c"` constructs a Track whose `is_favorite` is `true`
even though `"b-c"` is not a member of the favorites set — because the code
joins the hashes into the string `"ab-cd"` and tests Python substring
containment, not set membership. -/
theorem track_favorite_membership_cex :
    tag_untagged envC2 "k" ["/music/x.mp3"] wpstate =
      .ok { stores := { tracks := [{ trackhash := "b-c", albumhash := "alb",
                                     filepath := "/music/x.mp3", last_mod := 3,
                                     artist := [], albumartist := [],
                                     is_favorite := true }],
                        albums := [{ albumhash := "alb" }], artists := [] },
            db := [tgBC], thumbnailsRun := false, albumColorsRuns := 0,
            artistColorsRuns := 0, enrichmentCompleted := false } ∧
    "b-c" ∉ envC2.favs := by
  refine ⟨by decide, by decide⟩

/-- C2 amended: for every successfully tagged file, the constructed Track's
`is_favorite` is true exactly when its `trackhash` occurs as a contiguous
substring of the `"-"`-joined favorites hashes; membership of the trackhash
in the favorites set implies `is_favorite`, but not conversely. -/
theorem track_favorite_substring_amended (favs : List String) (tg : Tags) :
    ((mkTrack (joinFavs favs) tg).is_favorite = true ↔
      tg.trackhash.toList <:+: (joinFavs favs).toList) ∧
    (tg.trackhash ∈ favs → (mkTrack (joinFavs favs) tg).is_favorite = true) := by
  constructor
  · simp [mkTrack, isSubstr]
  · intro hmem
    simpa [mkTrack] using mem_joinFavs_substr tg.trackhash favs hmem

theorem track_favorite_substring_amended_witness :
    (((mkTrack (joinFavs ["ab", "cd"]) wtg).is_favorite = true ↔
      wtg.trackhash.toList <:+: (joinFavs ["ab", "cd"]).toList) ∧
    (wtg.trackhash ∈ ["ab", "cd"] → (mkTrack (joinFavs ["ab", "cd"]) wtg).is_favorite = true)) ∧
    (mkTrack (joinFavs ["ab", "cd"]) { wtg with trackhash := "cd" }).is_favorite = true :=
  ⟨track_favorite_substring_amended ["ab", "cd"] wtg,
   (track_favorite_substring_amended ["ab", "cd"] { wtg with trackhash := "cd" }).2 (by decide)⟩

/-- C6: a connection failure or read-timeout raised during the artist-image
enrichment stage is caught at the stage boundary: the pipeline call still
returns normally (nothing propagates out of `Populate(key)`), the
Track/Album/Artist stores and the persistent rows are exactly those of the
ingested state (previously-ingested entities untouched), the surrounding
stages still ran, and only the enrichment stage was cut short (the
enrichment-completed marker keeps its prior value). -/
theorem enrichment_failure_isolated (env : Env) (key : String) (st : PState)
    (hnet : env.net = .connError ∨ env.net = .readTimeout)
    (hkey : ∀ i, env.gkey i = key) (hroot : env.rootDirs.length ≠ 0) :
    ∃ stf, populate env key st = .ok stf ∧
      stf.stores = (ingestOk env (validate_tracks env.fsys st)).stores ∧
      stf.db = (ingestOk env (validate_tracks env.fsys st)).db ∧
      stf.thumbnailsRun = true ∧
      stf.enrichmentCompleted = st.enrichmentCompleted := by
  refine ⟨_, populate_no_cancel env key st hkey hroot, ?_, ?_, ?_, ?_⟩
  · exact (postStages_fields env _).1
  · exact (postStages_fields env _).2.1
  · exact (postStages_fields env _).2.2.1
  · have hne : env.net ≠ .ok := by rcases hnet with h | h <;> simp [h]
    rw [(postStages_fields env _).2.2.2 hne]
    exact (ingest_markers env st).2.2.2

theorem enrichment_failure_isolated_witness :
    (envNet.net = .connError ∨ envNet.net = .readTimeout) ∧
    ∃ stf, populate envNet "k" wpstate = .ok stf ∧
      stf.stores = (ingestOk envNet (validate_tracks envNet.fsys wpstate)).stores ∧
      stf.db = (ingestOk envNet (validate_tracks envNet.fsys wpstate)).db ∧
      stf.thumbnailsRun = true ∧
      stf.enrichmentCompleted = wpstate.enrichmentCompleted :=
  ⟨Or.inl rfl,
   enrichment_failure_isolated envNet "k" wpstate (Or.inl rfl) (fun _ => rfl) (by decide)⟩

/-- C7 counterexample: with the probe reachable but the enrichment stage
failing with a connection error (so no new artist images were obtained), the
artist color-extraction stage still runs a second time: the run ends with
`artistColorsRuns = 2`, contradicting the claim that the re-run is skipped
after a network failure. -/
theorem artist_recolor_after_net_failure_cex :
    envNet.net = NetOutcome.connError ∧
    populate envNet "k" wpstate =
      .ok { stores := wstores, db := [], thumbnailsRun := true, albumColorsRuns := 1,
            artistColorsRuns := 2, enrichmentCompleted := false } :=
  ⟨rfl, by decide⟩

/-- C7 amended: the artist color-extraction stage is re-invoked a second time
exactly when the connectivity probe reports reachable — i.e. whenever
enrichment was attempted, regardless of whether a network failure then
occurred during enrichment — and it is not re-run when the probe reports
unreachable. -/
theorem artist_recolor_iff_ping (env : Env) (st : PState) :
    (postStages env st).artistColorsRuns =
      st.artistColorsRuns + (if env.ping then 2 else 1) := by
  unfold postStages
  by_cases hp : env.ping <;> cases hn : env.net <;> simp [hp, hn, Nat.add_assoc]

/-- C9 counterexample: with configured roots `["$home", "/music"]` the
sentinel in first position makes the run replace the whole list by the home
directory: the configured non-sentinel root `"/music"` is dropped from the
scan, and the file below it never becomes a candidate. -/
theorem home_sentinel_drops_roots_cex :
    scanFiles envC9 = [] ∧
    "/music" ∈ envC9.rootDirs ∧ "/music" ≠ "$home" ∧
    "/music/a.mp3" ∈ envC9.scandir "/music" :=
  ⟨rfl, by decide, by decide, by decide⟩

/-- C9 amended: when the first configured root is the sentinel `"$home"`,
the scan covers exactly the user's home directory and every other configured
root is dropped; otherwise the scan covers exactly the files beneath all the
configured roots (a sentinel in a non-first position is scanned literally,
not resolved). -/
theorem scan_roots_resolution (env : Env) :
    scanFiles env =
      match env.rootDirs with
      | [] => []
      | d :: ds =>
          if d = "$home" then env.scandir env.userHome
          else (d :: ds).flatMap env.scandir := by
  unfold scanFiles resolveRootDirs
  cases hd : env.rootDirs with
  | nil => simp
  | cons d ds =>
      by_cases hsent : d = "$home" <;> simp [hsent]

/-- All persistent rows record the mtime the filesystem currently reports
for their path (in particular every recorded path is readable). -/
def Synced (fsys : String → Option Nat) (db : List Tags) : Prop :=
  ∀ r ∈ db, fsys r.filepath = some r.last_mod

/-- With synced rows, validation removes no persistent row. -/
theorem validate_db_of_synced (fsys : String → Option Nat) (st : PState)
    (hs : Synced fsys st.db) : (validate_tracks fsys st).db = st.db := by
  unfold validate_tracks
  exact List.filter_eq_self.mpr (fun r hr => by simp [hs r hr])

/-- With synced rows, the modified-filepath list is empty. -/
theorem modified_nil_of_synced (fsys : String → Option Nat) (db : List Tags)
    (hs : Synced fsys db) :
    db.filter (fun t => t.last_mod ≠ getmtime fsys t.filepath) = [] := by
  rw [List.filter_eq_nil_iff]
  intro r hr
  simp [getmtime, hs r hr]

/-- With synced rows, `remove_modified` is the identity. -/
theorem remove_modified_of_synced (fsys : String → Option Nat) (tracks : List Tags)
    (st : PState) (hs : Synced fsys tracks) :
    remove_modified fsys tracks st = st := by
  simp only [remove_modified, modified_nil_of_synced fsys tracks hs]
  simp

/-- When every row is synced and every in-memory track's file is readable,
validation is the identity. -/
theorem validate_tracks_of_synced (fsys : String → Option Nat) (st : PState)
    (hs : Synced fsys st.db)
    (hst : ∀ t ∈ st.stores.tracks, (fsys t.filepath).isSome) :
    validate_tracks fsys st = st := by
  unfold validate_tracks
  rw [List.filter_eq_self.mpr (fun t ht => by simpa using hst t ht),
    List.filter_eq_self.mpr (fun r hr => by simp [hs r hr])]

/-- Processing files on which the extractor yields nothing changes no store. -/
theorem processFiles_none (ah : String → String) (getTags : String → Option Tags)
    (favStr : String) :
    ∀ (files : List String) (s : Stores), (∀ f ∈ files, getTags f = none) →
      processFiles ah getTags favStr files s = s
  | [], _, _ => rfl
  | f :: files, s, hall => by
      have h0 : getTags f = none := hall f (by simp)
      have ih := processFiles_none ah getTags favStr files s
        (fun g hg => hall g (by simp [hg]))
      simpa [processFiles, h0] using ih

/-- A concrete environment like `envC2` but whose global key has already
been replaced by a different session's key at every check. -/
def envC5 : Env :=
  { envC2 with gkey := fun _ => "k2" }

/-- A concrete environment like `envC2` with two scanned files and a global
key that changes after the first file's check. -/
def envC5b : Env :=
  { envC2 with gkey := wgkey, scandir := fun _ => ["/music/x.mp3", "/music/y.mp3"] }

/-- C5 counterexample: when the session key has changed, the pipeline call
itself ends with the escaped cancellation signal — the post-ingestion stages
never run in that call (no thumbnail pass, no color passes), so the
cancellation signal does abort the rest of the pipeline run. -/
theorem populate_cancel_aborts_pipeline_cex :
    populate envC5 "k" wpstate =
      .cancelled { stores := wstores, db := [], thumbnailsRun := false,
                   albumColorsRuns := 0, artistColorsRuns := 0,
                   enrichmentCompleted := false } := by
  decide

/-- C5 amended: when the session key changes mid-loop, only the in-progress
tag-ingestion batch is aborted in the sense that the batch insert is skipped
(the persistent table keeps exactly its removal-phase rows) and every track
committed to the in-memory store before the change survives; but the
cancellation signal propagates out of the pipeline call, so the stages after
tag ingestion do not run in that call (the escaped state carries the
starting state's stage markers, unchanged). -/
theorem populate_cancel_amended (env : Env) (key : String) (st : PState) (n : Nat)
    (hroot : env.rootDirs.length ≠ 0)
    (hn : n < (untaggedOf env st).length)
    (hpre : ∀ j < n, env.gkey j = key) (hcur : env.gkey n ≠ key) :
    populate env key st =
      .cancelled { (removePhase env.fsys st) with
        stores := processFiles env.ah env.getTags (joinFavs env.favs)
          ((untaggedOf env st).take n) (removePhase env.fsys st).stores } ∧
    (removePhase env.fsys st).stores.tracks <+:
      (processFiles env.ah env.getTags (joinFavs env.favs)
        ((untaggedOf env st).take n) (removePhase env.fsys st).stores).tracks ∧
    (removePhase env.fsys st).thumbnailsRun = st.thumbnailsRun ∧
    (removePhase env.fsys st).albumColorsRuns = st.albumColorsRuns ∧
    (removePhase env.fsys st).artistColorsRuns = st.artistColorsRuns := by
  refine ⟨?_, ?_, rfl, rfl, rfl⟩
  · have hcs := tagLoop_cancel_spec env.ah env.gkey key env.getTags (joinFavs env.favs)
      (untaggedOf env st) n 0 (removePhase env.fsys st).stores [] 0 hn
      (by intro j hj; simpa using hpre j hj) (by simpa using hcur)
    unfold untaggedOf removePhase at hcs
    unfold populate
    rw [if_neg hroot]
    unfold ingestPhase
    rw [if_pos (by unfold untaggedOf at hn; omega)]
    unfold tag_untagged
    rw [hcs]
    rfl
  · rw [processFiles_tracks]
    exact ⟨_, rfl⟩

theorem populate_cancel_amended_witness :
    (populate envC5b "k1" wpstate =
      .cancelled { (removePhase envC5b.fsys wpstate) with
        stores := processFiles envC5b.ah envC5b.getTags (joinFavs envC5b.favs)
          ((untaggedOf envC5b wpstate).take 1) (removePhase envC5b.fsys wpstate).stores } ∧
    (removePhase envC5b.fsys wpstate).stores.tracks <+:
      (processFiles envC5b.ah envC5b.getTags (joinFavs envC5b.favs)
        ((untaggedOf envC5b wpstate).take 1) (removePhase envC5b.fsys wpstate).stores).tracks ∧
    (removePhase envC5b.fsys wpstate).thumbnailsRun = wpstate.thumbnailsRun ∧
    (removePhase envC5b.fsys wpstate).albumColorsRuns = wpstate.albumColorsRuns ∧
    (removePhase envC5b.fsys wpstate).artistColorsRuns = wpstate.artistColorsRuns) :=
  populate_cancel_amended envC5b "k1" wpstate 1 (by decide) (by decide) (by decide) (by decide)

/-- C3: After the tag-ingestion loop — whether it completed or was cancelled
mid-way — the Album and Artist stores contain no two entries sharing a hash
(an Album or Artist is inserted only when the exists-check on its hash
fails), and for every track ingested by the loop exactly one Album entity
with its `albumhash` exists in the Album store and, for every artist
identity of the track in either the artist or the albumartist role, exactly
one Artist entity with that `artisthash` exists in the Artist store. -/
theorem store_dedup_invariant (ah : String → String) (gkey : Nat → String) (key : String)
    (getTags : String → Option Tags) (favStr : String) (untagged : List String) (s : Stores)
    (hA : (albumKeys s).Nodup) (hR : (artistKeys s).Nodup)
    (hwf : ∀ f tg, getTags f = some tg → WFTags ah tg) :
    (albumKeys (outcomeStores (tagLoop ah gkey key getTags favStr untagged 0 s [] 0))).Nodup ∧
    (artistKeys (outcomeStores (tagLoop ah gkey key getTags favStr untagged 0 s [] 0))).Nodup ∧
    ∀ tr ∈ (outcomeStores
        (tagLoop ah gkey key getTags favStr untagged 0 s [] 0)).tracks.drop s.tracks.length,
      (outcomeStores (tagLoop ah gkey key getTags favStr untagged 0 s [] 0)).albums.countP
          (fun a => a.albumhash == tr.albumhash) = 1 ∧
      ∀ idt ∈ tr.artist ++ tr.albumartist,
        (outcomeStores (tagLoop ah gkey key getTags favStr untagged 0 s [] 0)).artists.countP
            (fun a => a.artisthash == idt.artisthash) = 1 := by
  obtain ⟨m, hm, hout⟩ := tagLoop_outcomeStores ah gkey key getTags favStr untagged 0 s [] 0
  rw [hout]
  have hd := processFiles_dedup ah getTags favStr hwf (untagged.take m) s hA hR
  refine ⟨hd.1, hd.2.1, ?_⟩
  intro tr htr
  have hkp := hd.2.2 tr htr
  constructor
  · exact countP_eq_one_of_nodup (fun a : Album => a.albumhash)
      (processFiles ah getTags favStr (untagged.take m) s).albums tr.albumhash
      (by simpa [albumKeys] using hd.1) (by simpa [albumKeys] using hkp.1)
  · intro idt hidt
    exact countP_eq_one_of_nodup (fun a : Artist => a.artisthash)
      (processFiles ah getTags favStr (untagged.take m) s).artists idt.artisthash
      (by simpa [artistKeys] using hd.2.1)
      (by simpa [artistKeys] using hkp.2 idt hidt)

/-- A concrete tag record with one track artist and one album artist whose
hashes are consistent with the identity hash function. -/
def tgW3 : Tags :=
  { trackhash := "t1", albumhash := "albA", filepath := "/music/a.mp3", last_mod := 1,
    artist := [⟨"X", "X"⟩], albumartist := [⟨"Y", "Y"⟩] }

theorem store_dedup_invariant_witness :
    (albumKeys (outcomeStores (tagLoop (fun x => x) (fun _ => "k") "k" (fun _ => some tgW3) ""
        ["/music/a.mp3", "/music/b.mp3"] 0 wstores [] 0))).Nodup ∧
    (artistKeys (outcomeStores (tagLoop (fun x => x) (fun _ => "k") "k" (fun _ => some tgW3) ""
        ["/music/a.mp3", "/music/b.mp3"] 0 wstores [] 0))).Nodup ∧
    ∀ tr ∈ (outcomeStores (tagLoop (fun x => x) (fun _ => "k") "k" (fun _ => some tgW3) ""
        ["/music/a.mp3", "/music/b.mp3"] 0 wstores [] 0)).tracks.drop wstores.tracks.length,
      (outcomeStores (tagLoop (fun x => x) (fun _ => "k") "k" (fun _ => some tgW3) ""
          ["/music/a.mp3", "/music/b.mp3"] 0 wstores [] 0)).albums.countP
          (fun a => a.albumhash == tr.albumhash) = 1 ∧
      ∀ idt ∈ tr.artist ++ tr.albumartist,
        (outcomeStores (tagLoop (fun x => x) (fun _ => "k") "k" (fun _ => some tgW3) ""
            ["/music/a.mp3", "/music/b.mp3"] 0 wstores [] 0)).artists.countP
            (fun a => a.artisthash == idt.artisthash) = 1 :=
  store_dedup_invariant (fun x => x) (fun _ => "k") "k" (fun _ => some tgW3) ""
    ["/music/a.mp3", "/music/b.mp3"] wstores (by decide) (by decide)
    (fun f tg h => by injection h with h2; rw [← h2]; decide)

/-- A concrete known row whose file has been deleted from disk. -/
def rowGone : Tags :=
  { trackhash := "tg", albumhash := "ag", filepath := "/music/gone.mp3", last_mod := 5,
    artist := [], albumartist := [] }

/-- A concrete in-memory track mirroring `rowGone`. -/
def trackGone : Track :=
  { trackhash := "tg", albumhash := "ag", filepath := "/music/gone.mp3", last_mod := 5,
    artist := [], albumartist := [], is_favorite := false }

/-- A concrete environment in which `rowGone`'s file is unreadable. -/
def envC4 : Env :=
  { ah := fun n => n, scandir := fun _ => [],
    fsys := fun p => if p = "/music/gone.mp3" then none else some 1,
    getTags := fun _ => none, favs := [], gkey := fun _ => "k", ping := false,
    net := .ok, rootDirs := ["/music"], userHome := "/home/u" }

/-- A concrete starting state that knows `rowGone` in both stores. -/
def stC4 : PState :=
  { wpstate with db := [rowGone], stores := { wstores with tracks := [trackGone] } }

theorem stale_tracks_removed_witness :
    (∀ r ∈ (removePhase envC4.fsys stC4).db, r.filepath ≠ rowGone.filepath) ∧
    (∀ t ∈ (removePhase envC4.fsys stC4).stores.tracks, t.filepath ≠ rowGone.filepath) ∧
    (envC4.fsys rowGone.filepath = none →
      (∀ f tg, envC4.getTags f = some tg → tg.filepath = f) →
      (∀ d, ∀ f ∈ envC4.scandir d, (envC4.fsys f).isSome) →
      ∀ st', populate envC4 "k" stC4 = .ok st' ∨ populate envC4 "k" stC4 = .cancelled st' →
        ∀ t ∈ st'.stores.tracks, t.filepath ≠ rowGone.filepath) :=
  stale_tracks_removed envC4 "k" stC4 rowGone (by decide) (Or.inl (by decide))

/-- A concrete stale known row: its file exists on disk but the recorded
mtime is out of date. -/
def rowStale : Tags :=
  { trackhash := "t8", albumhash := "a8", filepath := "/music/a.mp3", last_mod := 1,
    artist := [], albumartist := [] }

/-- The same file's fresh tag record, as the extractor reports it. -/
def tgFresh : Tags :=
  { trackhash := "t8", albumhash := "a8", filepath := "/music/a.mp3", last_mod := 2,
    artist := [], albumartist := [] }

/-- A concrete environment with one on-disk file whose mtime is `2`. -/
def envC8 : Env :=
  { ah := fun n => n, scandir := fun _ => ["/music/a.mp3"],
    fsys := fun _ => some 2, getTags := fun _ => some tgFresh, favs := [],
    gkey := fun _ => "k", ping := false, net := .ok, rootDirs := ["/music"],
    userHome := "/home/u" }

/-- A concrete starting state knowing the stale row. -/
def stC8 : PState :=
  { wpstate with db := [rowStale] }

/-- The state after the first run on `stC8`: the stale row is removed and
nothing is ingested. -/
def stC8r1 : PState :=
  { stores := wstores, db := [], thumbnailsRun := true, albumColorsRuns := 1,
    artistColorsRuns := 1, enrichmentCompleted := false }

/-- The state after the second run: the file is ingested as new. -/
def stC8r2 : PState :=
  { stores := { tracks := [{ trackhash := "t8", albumhash := "a8",
                             filepath := "/music/a.mp3", last_mod := 2,
                             artist := [], albumartist := [], is_favorite := false }],
                albums := [{ albumhash := "a8" }], artists := [] },
    db := [tgFresh], thumbnailsRun := true, albumColorsRuns := 2,
    artistColorsRuns := 2, enrichmentCompleted := false }

/-- C8 counterexample: starting from a store holding a stale row (the file's
mtime changed before the first run), the first run removes the row without
re-ingesting the file — the untagged set is computed from the pre-removal
rows, so the file still counts as tagged — and the second run, with the
filesystem unchanged between the runs, then ingests it as new: the second
run produces a new Track, Album and persistent row, so running ingestion
twice with no filesystem changes between the runs is not free of new
entries on the second run. -/
theorem reingest_second_run_cex :
    populate envC8 "k" stC8 = .ok stC8r1 ∧
    populate envC8 "k" stC8r1 = .ok stC8r2 ∧
    stC8r1.stores.tracks.length = 0 ∧ stC8r2.stores.tracks.length = 1 ∧
    stC8r1.stores.albums.length = 0 ∧ stC8r2.stores.albums.length = 1 := by
  refine ⟨by decide, by decide, rfl, rfl, rfl, rfl⟩

/-- C8 amended: provided no known row is stale at the start (every recorded
mtime matches the filesystem), running the pipeline twice in a row with the
filesystem, scanner, extractor and session key unchanged produces zero new
Track/Album/Artist entries and zero new persistent rows on the second run:
the stores and the persistent table after the second run equal those after
the first. -/
theorem ingest_idempotent_from_synced (env : Env) (key : String) (st : PState)
    (hroot : env.rootDirs.length ≠ 0)
    (hsync : Synced env.fsys st.db)
    (hkey : ∀ i, env.gkey i = key)
    (htag : ∀ f tg, env.getTags f = some tg → tg.filepath = f ∧ env.fsys f = some tg.last_mod) :
    ∃ st1 st2, populate env key st = .ok st1 ∧ populate env key st1 = .ok st2 ∧
      st2.stores = st1.stores ∧ st2.db = st1.db := by
  have hVdb : (validate_tracks env.fsys st).db = st.db := validate_db_of_synced env.fsys st hsync
  have hsyncV : Synced env.fsys (validate_tracks env.fsys st).db := by
    rw [hVdb]; exact hsync
  have hR : remove_modified env.fsys (validate_tracks env.fsys st).db
      (validate_tracks env.fsys st) = validate_tracks env.fsys st :=
    remove_modified_of_synced env.fsys _ _ hsyncV
  have hAs : (ingestOk env (validate_tracks env.fsys st)).stores =
      processFiles env.ah env.getTags (joinFavs env.favs)
        (untaggedOf env st) (validate_tracks env.fsys st).stores := by
    simp only [ingestOk]
    rw [hR]
    rfl
  have hAdb : (ingestOk env (validate_tracks env.fsys st)).db =
      st.db ++ (untaggedOf env st).filterMap env.getTags := by
    simp only [ingestOk]
    rw [hR]
    unfold untaggedOf
    rw [hVdb]
  set st1 := postStages env (ingestOk env (validate_tracks env.fsys st)) with hst1def
  have hrun1 : populate env key st = .ok st1 := populate_no_cancel env key st hkey hroot
  have hst1s : st1.stores = (ingestOk env (validate_tracks env.fsys st)).stores :=
    (postStages_fields env _).1
  have hst1db : st1.db = st.db ++ (untaggedOf env st).filterMap env.getTags := by
    rw [hst1def, (postStages_fields env _).2.1, hAdb]
  have hsync1 : Synced env.fsys st1.db := by
    intro r hr
    rw [hst1db] at hr
    rcases List.mem_append.mp hr with h | h
    · exact hsync r h
    · rcases List.mem_filterMap.mp h with ⟨f, hf, hgf⟩
      obtain ⟨hfp, hfs⟩ := htag f r hgf
      rw [hfp]; exact hfs
  have hst1tracks : st1.stores.tracks =
      (validate_tracks env.fsys st).stores.tracks ++
        ((untaggedOf env st).filterMap env.getTags).map (mkTrack (joinFavs env.favs)) := by
    rw [hst1s, hAs, processFiles_tracks]
  have hread : ∀ t ∈ st1.stores.tracks, (env.fsys t.filepath).isSome := by
    intro t ht
    rw [hst1tracks] at ht
    rcases List.mem_append.mp ht with h | h
    · exact ((validate_tracks_mem env.fsys st t).mp h).2
    · rcases List.mem_map.mp h with ⟨tg, htg, htr⟩
      rcases List.mem_filterMap.mp htg with ⟨f, hf, hgf⟩
      obtain ⟨hfp, hfs⟩ := htag f tg hgf
      rw [← htr]
      show (env.fsys tg.filepath).isSome
      rw [hfp, hfs]
      rfl
  have hV1 : validate_tracks env.fsys st1 = st1 :=
    validate_tracks_of_synced env.fsys st1 hsync1 hread
  have hR1 : remove_modified env.fsys st1.db st1 = st1 :=
    remove_modified_of_synced env.fsys _ _ hsync1
  have hU2 : ∀ f ∈ filter_untagged st1.db (scanFiles env), env.getTags f = none := by
    intro f hf
    unfold filter_untagged at hf
    rw [List.mem_dedup, List.mem_filter] at hf
    obtain ⟨hfile, hnot⟩ := hf
    cases hg : env.getTags f with
    | none => rfl
    | some tg =>
        exfalso
        have hfmem : f ∈ st1.db.map (·.filepath) := by
          by_cases hfu : f ∈ untaggedOf env st
          · have hB : tg ∈ (untaggedOf env st).filterMap env.getTags :=
              List.mem_filterMap.mpr ⟨f, hfu, hg⟩
            have htg1 : tg ∈ st1.db := by
              rw [hst1db]
              exact List.mem_append_right _ hB
            exact List.mem_map.mpr ⟨tg, htg1, (htag f tg hg).1⟩
          · have hin : f ∈ (validate_tracks env.fsys st).db.map (·.filepath) := by
              by_contra hnot2
              exact hfu (by
                unfold untaggedOf filter_untagged
                rw [List.mem_dedup, List.mem_filter]
                exact ⟨hfile, by simpa using hnot2⟩)
            rcases List.mem_map.mp hin with ⟨r, hr, hrf⟩
            refine List.mem_map.mpr ⟨r, ?_, hrf⟩
            rw [hst1db]
            refine List.mem_append_left _ ?_
            rw [← hVdb]
            exact hr
        simp only [decide_eq_true_eq] at hnot
        exact hnot hfmem
  have hA2s : (ingestOk env st1).stores = st1.stores := by
    simp only [ingestOk]
    rw [hR1]
    exact processFiles_none env.ah env.getTags (joinFavs env.favs) _ _ hU2
  have hA2db : (ingestOk env st1).db = st1.db := by
    simp only [ingestOk]
    rw [hR1]
    show st1.db ++ (filter_untagged st1.db (scanFiles env)).filterMap env.getTags = st1.db
    rw [List.filterMap_eq_nil_iff.mpr hU2, List.append_nil]
  refine ⟨st1, postStages env (ingestOk env (validate_tracks env.fsys st1)), hrun1,
    populate_no_cancel env key st1 hkey hroot, ?_, ?_⟩
  · rw [(postStages_fields env _).1, hV1, hA2s]
  · rw [(postStages_fields env _).2.1, hV1, hA2db]

/-- A concrete tag record for the idempotence witness. -/
def tgC8w : Tags :=
  { trackhash := "tw", albumhash := "aw", filepath := "/music/x.mp3", last_mod := 3,
    artist := [], albumartist := [] }

/-- A concrete environment for the idempotence witness: one readable file
whose extracted tags carry its path and current mtime. -/
def envC8w : Env :=
  { ah := fun n => n, scandir := fun _ => ["/music/x.mp3"],
    fsys := fun _ => some 3,
    getTags := fun f => if f = "/music/x.mp3" then some tgC8w else none,
    favs := [], gkey := fun _ => "k", ping := false, net := .ok,
    rootDirs := ["/music"], userHome := "/home/u" }

theorem ingest_idempotent_from_synced_witness :
    ∃ st1 st2, populate envC8w "k" wpstate = .ok st1 ∧ populate envC8w "k" st1 = .ok st2 ∧
      st2.stores = st1.stores ∧ st2.db = st1.db :=
  ingest_idempotent_from_synced envC8w "k" wpstate (by decide)
    (fun r hr => absurd hr (List.not_mem_nil r))
    (fun _ => rfl)
    (fun f tg h => by
      by_cases hf : f = "/music/x.mp3"
      · subst hf
        simp [envC8w] at h
        rw [← h]
        exact ⟨rfl, rfl⟩
      · simp [envC8w, hf] at h)

end Swing
